import Mathlib

/-!
# A shallow embedding of the `binary` structural codec

This file models the Go package `binary` (files `decoder.go`, the encoder
file with `Marshal`/`encodeField`/…, and `parseTag`) as executable Lean
definitions, and proves the frozen claims about it.

Modelling conventions:
* Go byte slices are `List Nat` with entries `< 256`.
* A Go value is a pair of a `Ty` (the reflective kind structure that the
  engine's `switch field.Kind()` dispatches on) and a `Val` (the data).
  `[]byte` / `[N]byte` are the kinds `Ty.bytes` / `Ty.byteArr n` (the Go
  code routes any slice/array with element kind `uint8` to the dedicated
  byte routines, so a slice/array `Ty` here stands for a non-byte element
  type).  Integers and floats are stored as their bit patterns (`Val.num`),
  which is exactly the byte-level content `encoding/binary` reads and
  writes; a well-formed `uintK`/`intK`/`floatK` pattern is `< 2^K`.
* The decode cursor is the list of not-yet-consumed bytes.  `bytes.Reader`
  semantics are modelled exactly: `Read` into an `L`-byte buffer fails with
  `io.EOF` only when the cursor is already exhausted (even for `L = 0`),
  and otherwise delivers `min L remaining` bytes without error;
  `binary.Read` (via `io.ReadFull`) fails whenever fewer than the needed
  bytes remain, consuming what was there.
* Errors carry the cursor state at failure, because
  `UnmarshalPartial` reports `buf.Len()` also on the error path.
* Wherever the Go code passes a length through `uint32(...)` — the payload
  comparison in `encodeString`/`encodeBytes`, `sliceLen`/`arrayLen` in
  `encodeSlice`/`encodeArray`/`decodeArray` — the model takes that length
  modulo `2^32`, so the wrap-around behaviour past `2^32` elements/bytes
  is preserved.
* Values implementing `BinaryMarshaler`/`BinaryUnmarshaler` are modelled at
  the top level (`MTop.custom` / `UTop.custom`) by the function the
  interface supplies; the structural universe `Ty`/`Val` contains only
  values without the custom capability, so the per-field interface probes
  inside `encodeStruct`/`decodeStruct` never fire on it and are not
  reproduced.
-/

namespace BinaryCodec

/-- Errors of the codec, following the `error` values the Go code builds. -/
inductive Err where
  /-- `io.EOF`, from a raw `bytes.Reader.Read` on an exhausted reader or
  `binary.Read` on an empty reader. -/
  | eof : Err
  /-- `io.ErrUnexpectedEOF`, from `binary.Read` when some but not all needed
  bytes remain. -/
  | unexpectedEOF : Err
  /-- `fmt.Errorf("unsupported type: %s", kind)`. -/
  | unsupported (kind : String) : Err
  /-- `fmt.Errorf("cannot encode nil pointer")`. -/
  | nilPointer : Err
  /-- `fmt.Errorf("only pointers are supported for unmarshaling")`. -/
  | onlyPointers : Err
  /-- `fmt.Errorf("cannot unmarshal into nil pointer")`. -/
  | nilTarget : Err
  /-- `fmt.Errorf("warning: %d bytes of data remaining after unmarshaling", n)`. -/
  | trailing (n : Nat) : Err
  /-- `fmt.Errorf("<msg>: %w", e)` — context wrapping, used for field errors
  and the top-level marshal/unmarshal wrappers. -/
  | wrap (msg : String) (e : Err) : Err
deriving DecidableEq

/-- The reflective kinds the engine dispatches on.  A struct field is
`(name, binary-tag, type)`, in declaration order. -/
inductive Ty where
  | u8 | u16 | u32 | u64
  | i8 | i16 | i32 | i64
  | boolT
  | f32 | f64
  /-- Go `string`. -/
  | str
  /-- Go `[]byte` (slice with element kind `uint8`). -/
  | bytes
  /-- Go `[N]byte` (array with element kind `uint8`). -/
  | byteArr (n : Nat)
  /-- Go `[]T` for a non-byte element type `T`. -/
  | slice (elem : Ty)
  /-- Go `[N]T` for a non-byte element type `T`. -/
  | arr (n : Nat) (elem : Ty)
  | ptr (elem : Ty)
  | strct (fields : List (String × String × Ty))

/-- Runtime data of a value; its kind is supplied separately by a `Ty`. -/
inductive Val where
  /-- The bit pattern of an integer or float value. -/
  | num (bits : Nat)
  | boolV (b : Bool)
  /-- A string, as its byte content. -/
  | str (s : List Nat)
  /-- A `[]byte`; `isNil` distinguishes the nil slice from an empty one
  (both have length 0 and encode identically). -/
  | bytes (isNil : Bool) (bs : List Nat)
  | byteArr (bs : List Nat)
  /-- A `[]T`; `isNil` distinguishes the nil slice. -/
  | slice (isNil : Bool) (elems : List Val)
  | arr (elems : List Val)
  /-- A nil pointer. -/
  | ptrNone
  /-- A non-nil pointer to `v`. -/
  | ptrSome (v : Val)
  | strct (fields : List Val)

/-! ## Little-endian bytes -/

/-- The `k` little-endian bytes of `n` (as written by `binary.Write` with
`binary.LittleEndian` for a `k`-byte scalar). -/
def natToLE : Nat → Nat → List Nat
  | 0, _ => []
  | k + 1, n => n % 256 :: natToLE k (n / 256)

/-- The number a little-endian byte list denotes. -/
def leToNat : List Nat → Nat
  | [] => 0
  | b :: rest => b + 256 * leToNat rest

@[simp] theorem natToLE_zero (n : Nat) : natToLE 0 n = [] := rfl

@[simp] theorem natToLE_succ (k n : Nat) :
    natToLE (k + 1) n = n % 256 :: natToLE k (n / 256) := rfl

@[simp] theorem leToNat_nil : leToNat [] = 0 := rfl

@[simp] theorem leToNat_cons (b : Nat) (rest : List Nat) :
    leToNat (b :: rest) = b + 256 * leToNat rest := rfl

@[simp] theorem natToLE_length (k n : Nat) : (natToLE k n).length = k := by
  induction k generalizing n with
  | zero => rfl
  | succ k ih => simp [natToLE, ih]

theorem leToNat_natToLE (k n : Nat) : leToNat (natToLE k n) = n % 256 ^ k := by
  induction k generalizing n with
  | zero => simp [Nat.mod_one]
  | succ k ih =>
      simp only [natToLE, leToNat, ih]
      rw [Nat.pow_succ, Nat.mul_comm (256 ^ k) 256]
      conv_rhs => rw [← Nat.div_add_mod (n % (256 * 256 ^ k)) 256]
      rw [Nat.mod_mul_right_div_self, Nat.mod_mul_right_mod]
      omega

/-! ## Byte-buffer reading primitives -/

/-- A decode step: either a result together with the remaining bytes, or an
error together with the bytes remaining at the moment of failure. -/
abbrev Dec (α : Type) := Except (Err × List Nat) (α × List Nat)

/-- `io.ReadFull` into a `k`-byte buffer, as used by `binary.Read`: succeeds
only when `k` bytes remain; on failure it has consumed everything and
reports `io.EOF` (nothing remained) or `io.ErrUnexpectedEOF`. -/
def readFull (k : Nat) (bs : List Nat) : Dec (List Nat) :=
  if k ≤ bs.length then .ok (bs.take k, bs.drop k)
  else if bs.length = 0 then .error (.eof, [])
  else .error (.unexpectedEOF, [])

/-- `binary.Read(buf, binary.LittleEndian, &length)` for a `uint32`. -/
def readU32 (bs : List Nat) : Dec Nat :=
  match readFull 4 bs with
  | .ok (d, rest) => .ok (leToNat d, rest)
  | .error e => .error e

/-- Zero-pad `xs` on the right to length `L`. -/
def padTo (L : Nat) (xs : List Nat) : List Nat :=
  xs ++ List.replicate (L - xs.length) 0

/-- The `data := make([]byte, L); buf.Read(data)` pattern of the decoder:
`bytes.Reader.Read` fails with `io.EOF` exactly when the reader is already
exhausted (even when `L = 0`); otherwise it delivers `min L remaining`
bytes with no error, the rest of `data` keeping its zero fill. -/
def readRaw (L : Nat) (bs : List Nat) : Dec (List Nat) :=
  if bs.length = 0 then .error (.eof, bs)
  else .ok (padTo L (bs.take L), bs.drop L)

/-- `bytes.TrimRight(data, "\x00")`. -/
def trimTrailingZeros (bs : List Nat) : List Nat :=
  (bs.reverse.dropWhile (· = 0)).reverse

/-! ## Tag parsing (`parseTag`) -/

/-- The value of a base-10 digit string (most significant digit first). -/
def digitsToNat (cs : List Char) : Nat :=
  cs.foldl (fun acc c => acc * 10 + (c.toNat - 48)) 0

/-- `strconv.ParseUint(s, 10, 32)`: a non-empty all-ASCII-digit string whose
value fits in 32 bits; everything else (signs, other characters, range
overflow, the empty string) is an error. -/
def parseUintDec32 (cs : List Char) : Option Nat :=
  if cs ≠ [] ∧ cs.all Char.isDigit ∧ digitsToNat cs < 2 ^ 32 then
    some (digitsToNat cs)
  else none

/-- `parseTag` from the Go source: empty and `-` are errors; an all-digit
string fitting in 32 bits parses; so does `len:<digits>` (checked with
`strings.HasPrefix` and `strings.Split(tag, ":")` producing exactly two
parts, so the remainder may not contain another `:`); anything else is an
invalid-format error. -/
def parseTag (tag : String) : Except String Nat :=
  if tag = "" then .error "empty tag"
  else if tag = "-" then .error "ignore tag"
  else
    match parseUintDec32 tag.data with
    | some n => .ok n
    | none =>
        if tag.data.take 4 = ['l', 'e', 'n', ':'] ∧ ¬(tag.data.drop 4).contains ':' then
          match parseUintDec32 (tag.data.drop 4) with
          | some n => .ok n
          | none => .error ("invalid tag format: " ++ tag)
        else .error ("invalid tag format: " ++ tag)

/-- The guard `tag != "" && parseTag(tag) == nil` that every encode/decode
routine uses to choose fixed framing, together with the parsed length. -/
def fixedLen (tag : String) : Option Nat :=
  if tag = "" then none
  else
    match parseTag tag with
    | .ok n => some n
    | .error _ => none

@[simp] theorem fixedLen_empty : fixedLen "" = none := rfl

theorem fixedLen_dash : fixedLen "-" = none := by
  simp [fixedLen, parseTag]

theorem fixedLen_three : fixedLen "3" = some 3 := by decide

/-! ## Zero values (`reflect.Zero`, `reflect.New(...).Elem()`) -/

mutual

/-- The zero value of a type: zero scalars, empty string, nil slices, nil
pointer, zero-filled arrays and structs. -/
def zeroVal : Ty → Val
  | .u8 | .u16 | .u32 | .u64 => .num 0
  | .i8 | .i16 | .i32 | .i64 => .num 0
  | .boolT => .boolV false
  | .f32 | .f64 => .num 0
  | .str => .str []
  | .bytes => .bytes true []
  | .byteArr n => .byteArr (List.replicate n 0)
  | .slice _ => .slice true []
  | .arr n elem => .arr (List.replicate n (zeroVal elem))
  | .ptr _ => .ptrNone
  | .strct tfs => .strct (zeroFields tfs)

/-- Zero values of a struct's fields, in declaration order. -/
def zeroFields : List (String × String × Ty) → List Val
  | [] => []
  | (_, _, fty) :: rest => zeroVal fty :: zeroFields rest

end

/-! ## The encoder (`Marshal` side) -/

/-- `encodeString`: with a parsed fixed-length tag the payload's length is
compared as `uint32(len(data))`, i.e. modulo `2^32`: a greater wrapped
length truncates to the first `n` bytes (`data[:n]`), a smaller one copies
the payload into a fresh zeroed `n`-byte buffer (`copy` moves at most `n`
bytes, so this is `take n` plus the remaining zero fill), and an equal one
writes the payload **in full** — no length prefix in any of these.
Otherwise a 4-byte little-endian count (`uint32(len(data))`; `natToLE 4`
wraps the same way) is written, then the whole payload. -/
def encodeString (s : List Nat) (tag : String) : List Nat :=
  match fixedLen tag with
  | some n =>
      if s.length % 2 ^ 32 > n then s.take n
      else if s.length % 2 ^ 32 < n then
        s.take n ++ List.replicate (n - s.length) 0
      else s
  | none => natToLE 4 s.length ++ s

/-- `encodeBytes`, used for both `[]byte` and (after copying) `[N]byte`:
same framing policy as `encodeString`, including the `uint32(len(b))`
wrap-around of the length comparison. -/
def encodeBytes (b : List Nat) (tag : String) : List Nat :=
  match fixedLen tag with
  | some n =>
      if b.length % 2 ^ 32 > n then b.take n
      else if b.length % 2 ^ 32 < n then
        b.take n ++ List.replicate (n - b.length) 0
      else b
  | none => natToLE 4 b.length ++ b

mutual

/-- `encodeField`: the engine's kind switch.  Pointers must be non-nil and
encode as their pointee; scalars are written little-endian at their fixed
width (bools as one 0/1 byte); strings/bytes dispatch to the byte routines
(`[N]byte` is first copied to a plain byte list); non-byte slices, arrays
and structs recurse.  A kind/value mismatch cannot arise for a value of the
stated type and falls to the unsupported-type branch. -/
def encodeField (ty : Ty) (v : Val) (tag : String) : Except Err (List Nat) :=
  match ty, v with
  | .ptr _, .ptrNone => .error .nilPointer
  | .ptr elem, .ptrSome w => encodeField elem w tag
  | .u8, .num n => .ok (natToLE 1 n)
  | .u16, .num n => .ok (natToLE 2 n)
  | .u32, .num n => .ok (natToLE 4 n)
  | .u64, .num n => .ok (natToLE 8 n)
  | .i8, .num n => .ok (natToLE 1 n)
  | .i16, .num n => .ok (natToLE 2 n)
  | .i32, .num n => .ok (natToLE 4 n)
  | .i64, .num n => .ok (natToLE 8 n)
  | .boolT, .boolV b => .ok [if b then 1 else 0]
  | .f32, .num n => .ok (natToLE 4 n)
  | .f64, .num n => .ok (natToLE 8 n)
  | .str, .str s => .ok (encodeString s tag)
  | .bytes, .bytes _ bs => .ok (encodeBytes bs tag)
  | .byteArr _, .byteArr bs => .ok (encodeBytes bs tag)
  | .slice elem, .slice _ vs => encodeSlice elem vs tag
  | .arr _ elem, .arr vs => encodeArray elem vs tag
  | .strct tfs, .strct vs => encodeStruct tfs vs
  | _, _ => .error (.unsupported "kind/value mismatch")

/-- `encodeSlice` (non-byte element type): the slice length is taken as
`sliceLen := uint32(slice.Len())`, i.e. modulo `2^32`.  With a parsed
fixed-length tag, write exactly `n` elements and no count: loop index `i`
uses the real element `slice.Index(i)` while `i < sliceLen` (exactly the
elements of `vs.take sliceLen`) and the element type's zero value after.
Otherwise write `sliceLen` as a 4-byte count and then loop over
`int(sliceLen)` elements, each encoded with the empty tag. -/
def encodeSlice (elem : Ty) (vs : List Val) (tag : String) :
    Except Err (List Nat) :=
  let sliceLen := vs.length % 2 ^ 32
  match fixedLen tag with
  | some n => encodeFixedElems elem (vs.take sliceLen) n
  | none =>
      match encodeElems elem (vs.take sliceLen) with
      | .ok out => .ok (natToLE 4 sliceLen ++ out)
      | .error e => .error e

/-- `encodeArray` (non-byte element type): same policy as `encodeSlice`,
with `arrayLen := uint32(array.Len())` as the wrapped length. -/
def encodeArray (elem : Ty) (vs : List Val) (tag : String) :
    Except Err (List Nat) :=
  let arrayLen := vs.length % 2 ^ 32
  match fixedLen tag with
  | some n => encodeFixedElems elem (vs.take arrayLen) n
  | none =>
      match encodeElems elem (vs.take arrayLen) with
      | .ok out => .ok (natToLE 4 arrayLen ++ out)
      | .error e => .error e

/-- The fixed-length element loop of `encodeSlice`/`encodeArray`: for
`i < n`, encode the `i`-th real element while one exists, else the element
type's zero value; excess real elements are not written. -/
def encodeFixedElems (elem : Ty) (vs : List Val) (n : Nat) :
    Except Err (List Nat) :=
  match n, vs with
  | 0, _ => .ok []
  | n + 1, [] =>
      match encodeField elem (zeroVal elem) "" with
      | .ok h =>
          match encodeFixedElems elem [] n with
          | .ok t => .ok (h ++ t)
          | .error e => .error e
      | .error e => .error e
  | n + 1, v :: rest =>
      match encodeField elem v "" with
      | .ok h =>
          match encodeFixedElems elem rest n with
          | .ok t => .ok (h ++ t)
          | .error e => .error e
      | .error e => .error e

/-- The default element loop of `encodeSlice`/`encodeArray`: each element
encoded in order with the empty tag. -/
def encodeElems (elem : Ty) (vs : List Val) : Except Err (List Nat) :=
  match vs with
  | [] => .ok []
  | v :: rest =>
      match encodeField elem v "" with
      | .ok h =>
          match encodeElems elem rest with
          | .ok t => .ok (h ++ t)
          | .error e => .error e
      | .error e => .error e

/-- `encodeStruct`: walk the fields in declaration order; a field tagged
`-` is skipped entirely; otherwise the field is encoded with its tag and an
error is wrapped with the field's name.  (Field counts always agree for a
value of the struct's type.) -/
def encodeStruct (tfs : List (String × String × Ty)) (vs : List Val) :
    Except Err (List Nat) :=
  match tfs, vs with
  | [], [] => .ok []
  | (name, tag, fty) :: trest, v :: vrest =>
      if tag = "-" then encodeStruct trest vrest
      else
        match encodeField fty v tag with
        | .ok h =>
            match encodeStruct trest vrest with
            | .ok t => .ok (h ++ t)
            | .error e => .error e
        | .error e => .error (.wrap ("error encoding field " ++ name) e)
  | _, _ => .error (.unsupported "field count mismatch")

end

/-! ## The decoder (`Unmarshal` side) -/

/-- `decodeString`: with a parsed fixed-length tag, read `n` raw bytes
(`bytes.Reader.Read` semantics) and strip trailing zero bytes; otherwise
read a 4-byte length prefix `L` and then `L` raw bytes, kept verbatim. -/
def decodeString (tag : String) (bs : List Nat) : Dec Val :=
  match fixedLen tag with
  | some n =>
      match readRaw n bs with
      | .ok (data, rest) => .ok (.str (trimTrailingZeros data), rest)
      | .error e => .error e
  | none =>
      match readU32 bs with
      | .ok (L, rest) =>
          match readRaw L rest with
          | .ok (data, rest2) => .ok (.str data, rest2)
          | .error e => .error e
      | .error e => .error e

/-- `decodeBytes` (`[]byte`): like `decodeString` but without the
trailing-zero stripping; the freshly made byte slice is never nil. -/
def decodeBytes (tag : String) (bs : List Nat) : Dec Val :=
  match fixedLen tag with
  | some n =>
      match readRaw n bs with
      | .ok (data, rest) => .ok (.bytes false data, rest)
      | .error e => .error e
  | none =>
      match readU32 bs with
      | .ok (L, rest) =>
          match readRaw L rest with
          | .ok (data, rest2) => .ok (.bytes false data, rest2)
          | .error e => .error e
      | .error e => .error e

/-- `decodeByteArray` (`[N]byte`): read the payload exactly as
`decodeBytes` would (tagged: `n` raw bytes; untagged: length prefix and
then `L` raw bytes), copy it into the array truncated to the array length,
and zero the array positions past the copied data. -/
def decodeByteArray (N : Nat) (tag : String) (bs : List Nat) : Dec Val :=
  match fixedLen tag with
  | some n =>
      match readRaw n bs with
      | .ok (data, rest) => .ok (.byteArr (padTo N (data.take N)), rest)
      | .error e => .error e
  | none =>
      match readU32 bs with
      | .ok (L, rest) =>
          match readRaw L rest with
          | .ok (data, rest2) => .ok (.byteArr (padTo N (data.take N)), rest2)
          | .error e => .error e
      | .error e => .error e

mutual

/-- `decodeField`: the decoder's kind switch, reading into a target that
currently holds `pre`.  A nil pointer target is first given a fresh zero
pointee; numeric kinds read their fixed width little-endian via
`binary.Read` — note that `reflect.Bool` has no case here and falls through
to the unsupported-type branch; strings, byte slices and byte arrays use
the byte routines; non-byte slices, arrays and structs recurse. -/
def decodeField (ty : Ty) (pre : Val) (tag : String) (bs : List Nat) :
    Dec Val :=
  match ty, pre with
  | .ptr elem, .ptrSome w =>
      match decodeField elem w tag bs with
      | .ok (v, rest) => .ok (.ptrSome v, rest)
      | .error e => .error e
  | .ptr elem, _ =>
      match decodeField elem (zeroVal elem) tag bs with
      | .ok (v, rest) => .ok (.ptrSome v, rest)
      | .error e => .error e
  | .u8, _ => decodeNum 1 bs
  | .u16, _ => decodeNum 2 bs
  | .u32, _ => decodeNum 4 bs
  | .u64, _ => decodeNum 8 bs
  | .i8, _ => decodeNum 1 bs
  | .i16, _ => decodeNum 2 bs
  | .i32, _ => decodeNum 4 bs
  | .i64, _ => decodeNum 8 bs
  | .f32, _ => decodeNum 4 bs
  | .f64, _ => decodeNum 8 bs
  | .str, _ => decodeString tag bs
  | .bytes, _ => decodeBytes tag bs
  | .byteArr n, _ => decodeByteArray n tag bs
  | .slice elem, _ => decodeSlice elem tag bs
  | .arr n elem, .arr pres => decodeArray n elem pres tag bs
  | .arr n elem, _ => decodeArray n elem (List.replicate n (zeroVal elem)) tag bs
  | .strct tfs, .strct vs =>
      match decodeStructFields tfs vs bs with
      | .ok (ws, rest) => .ok (.strct ws, rest)
      | .error e => .error e
  | .boolT, _ => .error (.unsupported "bool", bs)
  | _, _ => .error (.unsupported "kind", bs)
termination_by (sizeOf ty, 0, 0)

/-- `binary.Read` of a `k`-byte scalar into the field (or, for
non-addressable targets, into a temporary that is then stored — the result
is the same). -/
def decodeNum (k : Nat) (bs : List Nat) : Dec Val :=
  match readFull k bs with
  | .ok (d, rest) => .ok (.num (leToNat d), rest)
  | .error e => .error e

/-- `decodeSlice` (non-byte element type): with a parsed fixed-length tag,
make a slice of length `n` and decode `n` elements into it with no count
prefix; otherwise read a 4-byte count `L`, make a slice of length `L` and
decode `L` elements.  Fresh slice elements start as zero values. -/
def decodeSlice (elem : Ty) (tag : String) (bs : List Nat) : Dec Val :=
  match fixedLen tag with
  | some n =>
      match decodeElems elem n bs with
      | .ok (ws, rest) => .ok (.slice false ws, rest)
      | .error e => .error e
  | none =>
      match readU32 bs with
      | .ok (L, rest) =>
          match decodeElems elem L rest with
          | .ok (ws, rest2) => .ok (.slice false ws, rest2)
          | .error e => .error e
      | .error e => .error e
termination_by (sizeOf elem, 2, 0)

/-- Decode `n` consecutive elements of type `elem`, each into a fresh zero
target (the elements of a freshly made slice). -/
def decodeElems (elem : Ty) (n : Nat) (bs : List Nat) :
    Except (Err × List Nat) (List Val × List Nat) :=
  match n with
  | 0 => .ok ([], bs)
  | n + 1 =>
      match decodeField elem (zeroVal elem) "" bs with
      | .ok (v, rest) =>
          match decodeElems elem n rest with
          | .ok (ws, rest2) => .ok (v :: ws, rest2)
          | .error e => .error e
      | .error e => .error e
termination_by (sizeOf elem, 1, n)

/-- `decodeArray` (non-byte element type): the array length is taken as
`arrayLen := uint32(arrayType.Len())`, i.e. modulo `2^32`.  With a parsed
fixed-length tag, decode `n` elements — in place into the array positions
`i < arrayLen` (their current values as targets), afterwards into a
discarded temporary zero value — then zero the positions from `n` up to
`arrayLen`; positions at or past `arrayLen` are never touched and keep
their pre-existing values.  Otherwise do the same with the count `L` read
from a 4-byte prefix. -/
def decodeArray (N : Nat) (elem : Ty) (pres : List Val) (tag : String)
    (bs : List Nat) : Dec Val :=
  let arrayLen := N % 2 ^ 32
  match fixedLen tag with
  | some n =>
      match decodeArrayElems elem (pres.take arrayLen) n bs with
      | .ok (ws, rest) =>
          .ok (.arr (ws ++ List.replicate (arrayLen - n) (zeroVal elem)
              ++ pres.drop arrayLen), rest)
      | .error e => .error e
  | none =>
      match readU32 bs with
      | .ok (L, rest) =>
          match decodeArrayElems elem (pres.take arrayLen) L rest with
          | .ok (ws, rest2) =>
              .ok (.arr (ws ++ List.replicate (arrayLen - L) (zeroVal elem)
                  ++ pres.drop arrayLen), rest2)
          | .error e => .error e
      | .error e => .error e
termination_by (sizeOf elem, 2, 0)

/-- The element loop of `decodeArray`: decode `n` elements in order; while
a current array element remains it is the in-place target and the decoded
value is kept; past the array's length the target is a discarded temporary
zero value and the decoded value is dropped (the cursor still advances). -/
def decodeArrayElems (elem : Ty) (pres : List Val) (n : Nat)
    (bs : List Nat) : Except (Err × List Nat) (List Val × List Nat) :=
  match n, pres with
  | 0, _ => .ok ([], bs)
  | n + 1, p :: prest =>
      match decodeField elem p "" bs with
      | .ok (v, rest) =>
          match decodeArrayElems elem prest n rest with
          | .ok (ws, rest2) => .ok (v :: ws, rest2)
          | .error e => .error e
      | .error e => .error e
  | n + 1, [] =>
      match decodeField elem (zeroVal elem) "" bs with
      | .ok (_, rest) => decodeArrayElems elem [] n rest
      | .error e => .error e
termination_by (sizeOf elem, 1, n)

/-- `decodeStruct`'s field walk: a field tagged `-` is skipped and keeps
the target's current value; any other field decodes with its tag into the
target's current field value, errors being wrapped with the field name. -/
def decodeStructFields (tfs : List (String × String × Ty)) (vs : List Val)
    (bs : List Nat) : Except (Err × List Nat) (List Val × List Nat) :=
  match tfs, vs with
  | [], [] => .ok ([], bs)
  | (name, tag, fty) :: trest, v :: vrest =>
      if tag = "-" then
        match decodeStructFields trest vrest bs with
        | .ok (ws, rest) => .ok (v :: ws, rest)
        | .error e => .error e
      else
        match decodeField fty v tag bs with
        | .ok (w, rest) =>
            match decodeStructFields trest vrest rest with
            | .ok (ws, rest2) => .ok (w :: ws, rest2)
            | .error e => .error e
        | .error (e, rest) =>
            .error (.wrap ("error decoding field " ++ name) e, rest)
  | _, _ => .error (.unsupported "field count mismatch", bs)
termination_by (sizeOf tfs, 0, 0)

end

/-! ## Top-level controllers -/

/-- What can be passed to `Marshal`: either a value implementing
`BinaryMarshaler` — represented by the result its `MarshalBinary()`
returns — or a structural value of some type. -/
inductive MTop where
  | custom (res : Except Err (List Nat))
  | plain (ty : Ty) (v : Val)

/-- `Marshal`: a `BinaryMarshaler` short-circuits the whole engine and its
output is returned as-is; otherwise the value is encoded by `encodeField`
with the empty tag, errors being wrapped with the marshal context. -/
def Marshal : MTop → Except Err (List Nat)
  | .custom res => res
  | .plain ty v =>
      match encodeField ty v "" with
      | .ok bs => .ok bs
      | .error e => .error (.wrap "error marshaling value" e)

/-- What can be passed to `Unmarshal`/`UnmarshalPartial`: a value
implementing `BinaryUnmarshaler` — represented by the error behaviour of
its `UnmarshalBinary` method —, a non-pointer, a nil pointer, or a non-nil
pointer to a value of type `ty` currently holding `pre`. -/
inductive UTop where
  | custom (unmarshalBinary : List Nat → Option Err)
  | notPtr
  | nilPtr
  | target (ty : Ty) (pre : Val)

/-- `UnmarshalPartial`: returns the remaining byte count together with the
outcome (`some v` is the decoded pointee for a structural target; `none`
stands for the opaquely mutated receiver of a `BinaryUnmarshaler`).  A
`BinaryUnmarshaler` receives the whole input and the remaining count is 0
no matter how much it consumed; a non-pointer or nil target fails with the
whole input remaining; otherwise `decodeField` runs on the pointee with the
empty tag, and the remaining count is the cursor's final state — also on
the error path, where the error is wrapped with the unmarshal context. -/
def UnmarshalPartial : UTop → List Nat → Nat × Except Err (Option Val)
  | .custom u, data =>
      (0, match u data with
          | some e => .error e
          | none => .ok none)
  | .notPtr, data => (data.length, .error .onlyPointers)
  | .nilPtr, data => (data.length, .error .nilTarget)
  | .target ty pre, data =>
      match decodeField ty pre "" data with
      | .ok (v, rest) => (rest.length, .ok (some v))
      | .error (e, rest) =>
          (rest.length, .error (.wrap "error unmarshaling value" e))

/-- `Unmarshal`: `UnmarshalPartial`, and additionally an error when any
bytes remain. -/
def Unmarshal (t : UTop) (data : List Nat) : Except Err (Option Val) :=
  match UnmarshalPartial t data with
  | (_, .error e) => .error e
  | (remaining, .ok v) =>
      if remaining > 0 then .error (.trailing remaining) else .ok v

/-! ## Supporting notions for the claims -/

/-- The byte width of the fixed-width scalar kinds (the kinds handled by
the numeric and float cases of `encodeField`). -/
def scalarWidth : Ty → Option Nat
  | .u8 | .i8 => some 1
  | .u16 | .i16 => some 2
  | .u32 | .i32 | .f32 => some 4
  | .u64 | .i64 | .f64 => some 8
  | _ => none

mutual

/-- Type conformance of a value, as reflection guarantees it in Go: the
data's constructor matches the kind, byte-array and array lengths equal the
declared length, pointees and elements conform recursively.  (No value
bounds; nil values conform.) -/
def shaped : Ty → Val → Bool
  | .u8, .num _ | .u16, .num _ | .u32, .num _ | .u64, .num _ => true
  | .i8, .num _ | .i16, .num _ | .i32, .num _ | .i64, .num _ => true
  | .f32, .num _ | .f64, .num _ => true
  | .boolT, .boolV _ => true
  | .str, .str _ => true
  | .bytes, .bytes _ _ => true
  | .byteArr N, .byteArr bs => bs.length = N
  | .slice elem, .slice _ vs => shapedList elem vs
  | .arr N elem, .arr vs => vs.length = N && shapedList elem vs
  | .ptr _, .ptrNone => true
  | .ptr elem, .ptrSome w => shaped elem w
  | .strct tfs, .strct vs => shapedFields tfs vs
  | _, _ => false

/-- Every element conforms to the element type. -/
def shapedList : Ty → List Val → Bool
  | _, [] => true
  | elem, v :: rest => shaped elem v && shapedList elem rest

/-- Field values conform positionally to the field types. -/
def shapedFields : List (String × String × Ty) → List Val → Bool
  | [], [] => true
  | (_, _, fty) :: trest, v :: vrest => shaped fty v && shapedFields trest vrest
  | _, _ => false

end

mutual

/-- The values for which the untagged byte format is lossless: conforming,
boolean-free (decode does not support bools), with every length below
`2^32` (the wire's count width), nil-free slices/byte-slices (nil decodes
to empty, see C10), non-nil pointers (nil fails to encode), integer and
float bit patterns within their width, and only untagged struct fields
(tags are the subject of C5-C7). -/
def good : Ty → Val → Bool
  | .u8, .num n | .i8, .num n => n < 2 ^ 8
  | .u16, .num n | .i16, .num n => n < 2 ^ 16
  | .u32, .num n | .i32, .num n | .f32, .num n => n < 2 ^ 32
  | .u64, .num n | .i64, .num n | .f64, .num n => n < 2 ^ 64
  | .str, .str s => s.length < 2 ^ 32
  | .bytes, .bytes isNil bs => !isNil && bs.length < 2 ^ 32
  | .byteArr N, .byteArr bs => bs.length = N && N < 2 ^ 32
  | .slice elem, .slice isNil vs =>
      !isNil && vs.length < 2 ^ 32 && goodList elem vs
  | .arr N elem, .arr vs => vs.length = N && N < 2 ^ 32 && goodList elem vs
  | .ptr elem, .ptrSome w => good elem w
  | .strct tfs, .strct vs => goodFields tfs vs
  | _, _ => false

/-- Every element is good. -/
def goodList : Ty → List Val → Bool
  | _, [] => true
  | elem, v :: rest => good elem v && goodList elem rest

/-- Every field is untagged and its value good. -/
def goodFields : List (String × String × Ty) → List Val → Bool
  | [], [] => true
  | (_, tag, fty) :: trest, v :: vrest =>
      tag = "" && good fty v && goodFields trest vrest
  | _, _ => false

end

/-- A replicated conforming value conforms elementwise. -/
theorem shapedList_replicate (elem : Ty) (v : Val) (h : shaped elem v = true) :
    ∀ k, shapedList elem (List.replicate k v) = true
  | 0 => by simp [shapedList]
  | k + 1 => by
      simp [List.replicate_succ, shapedList, h,
        shapedList_replicate elem v h k]

mutual

/-- Zero values conform to their type. -/
theorem zeroVal_shaped : ∀ (ty : Ty), shaped ty (zeroVal ty) = true
  | .u8 | .u16 | .u32 | .u64 | .i8 | .i16 | .i32 | .i64
  | .boolT | .f32 | .f64 => by simp [zeroVal, shaped]
  | .str | .bytes => by simp [zeroVal, shaped]
  | .byteArr n => by simp [zeroVal, shaped]
  | .slice elem => by simp [zeroVal, shaped, shapedList]
  | .arr n elem => by
      simp [zeroVal, shaped,
        shapedList_replicate elem (zeroVal elem) (zeroVal_shaped elem) n]
  | .ptr elem => by simp [zeroVal, shaped]
  | .strct tfs => by simp [zeroVal, shaped, zeroFields_shaped tfs]

/-- Zero field values conform to the field types. -/
theorem zeroFields_shaped : ∀ (tfs : List (String × String × Ty)),
    shapedFields tfs (zeroFields tfs) = true
  | [] => by simp [zeroFields, shapedFields]
  | (nm, tg, fty) :: rest => by
      simp [zeroFields, shapedFields, zeroVal_shaped fty,
        zeroFields_shaped rest]

end

/-- `binary.Read` of a `k`-byte scalar from its own little-endian encoding
followed by anything recovers the value and leaves exactly the rest. -/
theorem decodeNum_natToLE (k n : Nat) (hn : n < 256 ^ k)
    (suffix : List Nat) :
    decodeNum k (natToLE k n ++ suffix) = .ok (.num n, suffix) := by
  have hlen : (natToLE k n).length = k := natToLE_length k n
  have hle : k ≤ (natToLE k n ++ suffix).length := by simp [hlen]
  have htake : (natToLE k n ++ suffix).take k = natToLE k n :=
    List.take_left' hlen
  have hdrop : (natToLE k n ++ suffix).drop k = suffix :=
    List.drop_left' hlen
  simp only [decodeNum, readFull]
  rw [if_pos hle, htake, hdrop]
  simp [leToNat_natToLE, Nat.mod_eq_of_lt hn]

/-- A raw read of exactly the payload's length from the payload followed by
a non-empty rest yields the payload and leaves the rest. -/
theorem readRaw_append (L : Nat) (payload suffix : List Nat)
    (hlen : payload.length = L) (hs : suffix ≠ []) :
    readRaw L (payload ++ suffix) = .ok (payload, suffix) := by
  have h1 : 0 < suffix.length := List.length_pos.2 hs
  have hne : (payload ++ suffix).length ≠ 0 := by
    rw [List.length_append]; omega
  have htake : (payload ++ suffix).take L = payload := List.take_left' hlen
  have hdrop : (payload ++ suffix).drop L = suffix := List.drop_left' hlen
  simp only [readRaw]
  rw [if_neg hne, htake, hdrop]
  simp [padTo, hlen]

/-- Reading a 4-byte length prefix written by the encoder. -/
theorem readU32_natToLE_append (L : Nat) (hL : L < 2 ^ 32)
    (payload : List Nat) :
    readU32 (natToLE 4 L ++ payload) = .ok (L, payload) := by
  have hlen : (natToLE 4 L).length = 4 := natToLE_length 4 L
  have h4 : 4 ≤ (natToLE 4 L ++ payload).length := by
    simp [hlen]
  have htake : (natToLE 4 L ++ payload).take 4 = natToLE 4 L := by
    rw [List.take_append_of_le_length (by omega), List.take_of_length_le (by omega)]
  have hdrop : (natToLE 4 L ++ payload).drop 4 = payload := by
    rw [List.drop_append_of_le_length (by omega), List.drop_of_length_le (by omega)]
    simp
  have hval : leToNat (natToLE 4 L) = L := by
    rw [leToNat_natToLE]
    exact Nat.mod_eq_of_lt (by norm_num at hL ⊢; omega)
  simp only [readU32, readFull]
  rw [if_pos h4, htake, hdrop]
  simp only [hval]

/-- Encode then decode of a fixed-width scalar recovers it, whatever the
target held and with any leftover input preserved. -/
theorem roundtripScalar (ty : Ty) (k : Nat) (hk : scalarWidth ty = some k)
    (n : Nat) (hn : n < 256 ^ k) :
    encodeField ty (.num n) "" = .ok (natToLE k n) ∧
    ∀ pre suffix, decodeField ty pre "" (natToLE k n ++ suffix)
        = .ok (.num n, suffix) := by
  constructor
  · cases ty <;> simp_all [scalarWidth, encodeField]
  · intro pre suffix
    have hd : decodeField ty pre "" (natToLE k n ++ suffix)
        = decodeNum k (natToLE k n ++ suffix) := by
      cases ty <;> simp_all [scalarWidth, decodeField]
    rw [hd, decodeNum_natToLE k n hn suffix]

/-- Appending to a non-empty list stays non-empty. -/
theorem append_ne_nil_right {α : Type} (l₁ l₂ : List α) (h : l₂ ≠ []) :
    l₁ ++ l₂ ≠ [] := by
  intro hcon
  rw [List.append_eq_nil] at hcon
  exact h hcon.2

mutual

/-- The untagged wire format is lossless: a `good` value encodes
successfully, and decoding its bytes followed by any non-empty leftover —
into any type-conforming target — recovers exactly the value and leaves
exactly the leftover.  (The leftover must be non-empty only because of the
zero-length-read EOF quirk documented in C1/C2.) -/
theorem roundtripField (ty : Ty) (v : Val) (h : good ty v = true) :
    ∃ out, encodeField ty v "" = .ok out ∧
      ∀ pre suffix, shaped ty pre = true → suffix ≠ [] →
        decodeField ty pre "" (out ++ suffix) = .ok (v, suffix) := by
  cases ty with
  | u8 =>
      rcases v with n | b | s | ⟨bnil, bs⟩ | bs | ⟨snil, vs⟩ | vs | _ | w | fs <;>
        simp [good] at h
      obtain ⟨henc, hdec⟩ := roundtripScalar .u8 1 rfl n (by omega)
      exact ⟨_, henc, fun pre suffix _ _ => hdec pre suffix⟩
  | u16 =>
      rcases v with n | b | s | ⟨bnil, bs⟩ | bs | ⟨snil, vs⟩ | vs | _ | w | fs <;>
        simp [good] at h
      obtain ⟨henc, hdec⟩ := roundtripScalar .u16 2 rfl n (by omega)
      exact ⟨_, henc, fun pre suffix _ _ => hdec pre suffix⟩
  | u32 =>
      rcases v with n | b | s | ⟨bnil, bs⟩ | bs | ⟨snil, vs⟩ | vs | _ | w | fs <;>
        simp [good] at h
      obtain ⟨henc, hdec⟩ := roundtripScalar .u32 4 rfl n (by omega)
      exact ⟨_, henc, fun pre suffix _ _ => hdec pre suffix⟩
  | u64 =>
      rcases v with n | b | s | ⟨bnil, bs⟩ | bs | ⟨snil, vs⟩ | vs | _ | w | fs <;>
        simp [good] at h
      obtain ⟨henc, hdec⟩ := roundtripScalar .u64 8 rfl n (by omega)
      exact ⟨_, henc, fun pre suffix _ _ => hdec pre suffix⟩
  | i8 =>
      rcases v with n | b | s | ⟨bnil, bs⟩ | bs | ⟨snil, vs⟩ | vs | _ | w | fs <;>
        simp [good] at h
      obtain ⟨henc, hdec⟩ := roundtripScalar .i8 1 rfl n (by omega)
      exact ⟨_, henc, fun pre suffix _ _ => hdec pre suffix⟩
  | i16 =>
      rcases v with n | b | s | ⟨bnil, bs⟩ | bs | ⟨snil, vs⟩ | vs | _ | w | fs <;>
        simp [good] at h
      obtain ⟨henc, hdec⟩ := roundtripScalar .i16 2 rfl n (by omega)
      exact ⟨_, henc, fun pre suffix _ _ => hdec pre suffix⟩
  | i32 =>
      rcases v with n | b | s | ⟨bnil, bs⟩ | bs | ⟨snil, vs⟩ | vs | _ | w | fs <;>
        simp [good] at h
      obtain ⟨henc, hdec⟩ := roundtripScalar .i32 4 rfl n (by omega)
      exact ⟨_, henc, fun pre suffix _ _ => hdec pre suffix⟩
  | i64 =>
      rcases v with n | b | s | ⟨bnil, bs⟩ | bs | ⟨snil, vs⟩ | vs | _ | w | fs <;>
        simp [good] at h
      obtain ⟨henc, hdec⟩ := roundtripScalar .i64 8 rfl n (by omega)
      exact ⟨_, henc, fun pre suffix _ _ => hdec pre suffix⟩
  | f32 =>
      rcases v with n | b | s | ⟨bnil, bs⟩ | bs | ⟨snil, vs⟩ | vs | _ | w | fs <;>
        simp [good] at h
      obtain ⟨henc, hdec⟩ := roundtripScalar .f32 4 rfl n (by omega)
      exact ⟨_, henc, fun pre suffix _ _ => hdec pre suffix⟩
  | f64 =>
      rcases v with n | b | s | ⟨bnil, bs⟩ | bs | ⟨snil, vs⟩ | vs | _ | w | fs <;>
        simp [good] at h
      obtain ⟨henc, hdec⟩ := roundtripScalar .f64 8 rfl n (by omega)
      exact ⟨_, henc, fun pre suffix _ _ => hdec pre suffix⟩
  | boolT =>
      rcases v with n | b | s | ⟨bnil, bs⟩ | bs | ⟨snil, vs⟩ | vs | _ | w | fs <;>
        simp [good] at h
  | str =>
      rcases v with n | b | s | ⟨bnil, bs⟩ | bs | ⟨snil, vs⟩ | vs | _ | w | fs <;>
        simp [good] at h
      refine ⟨natToLE 4 s.length ++ s, ?_, ?_⟩
      · simp [encodeField, encodeString, fixedLen_empty]
      · intro pre suffix hpre hs
        have hd : decodeField .str pre "" ((natToLE 4 s.length ++ s) ++ suffix)
            = decodeString "" ((natToLE 4 s.length ++ s) ++ suffix) := by
          simp [decodeField]
        rw [hd]
        simp only [decodeString, fixedLen_empty]
        rw [List.append_assoc, readU32_natToLE_append s.length h (s ++ suffix)]
        simp [readRaw_append s.length s suffix rfl hs]
  | bytes =>
      rcases v with n | b | s | ⟨bnil, bs⟩ | bs | ⟨snil, vs⟩ | vs | _ | w | fs <;>
        simp [good] at h
      obtain ⟨hbn, hlen⟩ := h
      subst hbn
      refine ⟨natToLE 4 bs.length ++ bs, ?_, ?_⟩
      · simp [encodeField, encodeBytes, fixedLen_empty]
      · intro pre suffix hpre hs
        have hd : decodeField .bytes pre "" ((natToLE 4 bs.length ++ bs) ++ suffix)
            = decodeBytes "" ((natToLE 4 bs.length ++ bs) ++ suffix) := by
          simp [decodeField]
        rw [hd]
        simp only [decodeBytes, fixedLen_empty]
        rw [List.append_assoc, readU32_natToLE_append bs.length hlen (bs ++ suffix)]
        simp [readRaw_append bs.length bs suffix rfl hs]
  | byteArr N =>
      rcases v with n | b | s | ⟨bnil, bs⟩ | bs | ⟨snil, vs⟩ | vs | _ | w | fs <;>
        simp [good] at h
      obtain ⟨hlen, hN⟩ := h
      refine ⟨natToLE 4 bs.length ++ bs, ?_, ?_⟩
      · simp [encodeField, encodeBytes, fixedLen_empty]
      · intro pre suffix hpre hs
        have hd : decodeField (.byteArr N) pre ""
              ((natToLE 4 bs.length ++ bs) ++ suffix)
            = decodeByteArray N "" ((natToLE 4 bs.length ++ bs) ++ suffix) := by
          simp [decodeField]
        rw [hd]
        simp only [decodeByteArray, fixedLen_empty]
        rw [List.append_assoc,
          readU32_natToLE_append bs.length (hlen ▸ hN) (bs ++ suffix)]
        have htk : bs.take N = bs := List.take_of_length_le (by omega)
        simp [readRaw_append N bs suffix hlen hs, htk, padTo, hlen]
  | slice elem =>
      rcases v with n | b | s | ⟨bnil, bs⟩ | bs | ⟨snil, vs⟩ | vs | _ | w | fs <;>
        simp [good] at h
      obtain ⟨⟨hsn, hlen⟩, hgl⟩ := h
      subst hsn
      obtain ⟨out, henc, hdecE, _⟩ := roundtripElemsAll elem vs hgl
      refine ⟨natToLE 4 vs.length ++ out, ?_, ?_⟩
      · simp [encodeField, encodeSlice, fixedLen_empty, henc,
          Nat.mod_eq_of_lt hlen, List.take_length]
      · intro pre suffix hpre hs
        have hd : decodeField (.slice elem) pre ""
              ((natToLE 4 vs.length ++ out) ++ suffix)
            = decodeSlice elem "" ((natToLE 4 vs.length ++ out) ++ suffix) := by
          simp [decodeField]
        rw [hd]
        simp only [decodeSlice, fixedLen_empty]
        rw [List.append_assoc, readU32_natToLE_append vs.length hlen (out ++ suffix)]
        simp [hdecE suffix hs]
  | arr N elem =>
      rcases v with n | b | s | ⟨bnil, bs⟩ | bs | ⟨snil, vs⟩ | vs | _ | w | fs <;>
        simp [good] at h
      obtain ⟨⟨hlen, hN⟩, hgl⟩ := h
      obtain ⟨out, henc, _, hdecA⟩ := roundtripElemsAll elem vs hgl
      have hvl : vs.length < 4294967296 := by omega
      refine ⟨natToLE 4 vs.length ++ out, ?_, ?_⟩
      · simp [encodeField, encodeArray, fixedLen_empty, henc,
          Nat.mod_eq_of_lt hvl, List.take_length]
      · intro pre suffix hpre hs
        rcases pre with n2 | b2 | s2 | ⟨bnil2, bs2⟩ | bs2 | ⟨snil2, vs2⟩
          | pres | _ | w2 | fs2 <;> simp [shaped] at hpre
        obtain ⟨hplen, hps⟩ := hpre
        have hd : decodeField (.arr N elem) (.arr pres) ""
              ((natToLE 4 vs.length ++ out) ++ suffix)
            = decodeArray N elem pres "" ((natToLE 4 vs.length ++ out) ++ suffix) := by
          simp [decodeField]
        rw [hd]
        have hmodN : N % 2 ^ 32 = N := Nat.mod_eq_of_lt hN
        have hpt : pres.take N = pres := by
          rw [← hplen]; simp
        have hpd : pres.drop N = [] := by
          rw [← hplen]; simp
        simp only [decodeArray, fixedLen_empty, hmodN, hpt, hpd]
        rw [List.append_assoc,
          readU32_natToLE_append vs.length (hlen ▸ hN) (out ++ suffix)]
        have hA := hdecA pres suffix hps (by omega) hs
        rw [hlen] at hA
        rw [hlen]
        simp [hA]
  | ptr elem =>
      rcases v with n | b | s | ⟨bnil, bs⟩ | bs | ⟨snil, vs⟩ | vs | _ | w | fs <;>
        simp [good] at h
      obtain ⟨out, henc, hdec⟩ := roundtripField elem w h
      refine ⟨out, ?_, ?_⟩
      · simp [encodeField, henc]
      · intro pre suffix hpre hs
        rcases pre with n2 | b2 | s2 | ⟨bnil2, bs2⟩ | bs2 | ⟨snil2, vs2⟩
          | vs2 | _ | w2 | fs2 <;> simp [shaped] at hpre
        · simp [decodeField, hdec (zeroVal elem) suffix (zeroVal_shaped elem) hs]
        · simp [decodeField, hdec w2 suffix hpre hs]
  | strct tfs =>
      rcases v with n | b | s | ⟨bnil, bs⟩ | bs | ⟨snil, vs⟩ | vs | _ | w | fs <;>
        simp [good] at h
      obtain ⟨out, henc, hdec⟩ := roundtripFields tfs fs h
      refine ⟨out, ?_, ?_⟩
      · simp [encodeField, henc]
      · intro pre suffix hpre hs
        rcases pre with n2 | b2 | s2 | ⟨bnil2, bs2⟩ | bs2 | ⟨snil2, vs2⟩
          | vs2 | _ | w2 | fs2 <;> simp [shaped] at hpre
        simp [decodeField, hdec fs2 suffix hpre hs]
termination_by (sizeOf ty, 0, 0)
decreasing_by all_goals (subst_vars; decreasing_tactic)

/-- Round trip for a list of elements, both through the fresh-target loop
of `decodeSlice` and through the in-place loop of `decodeArray`. -/
theorem roundtripElemsAll (elem : Ty) (vs : List Val)
    (h : goodList elem vs = true) :
    ∃ out, encodeElems elem vs = .ok out ∧
      (∀ suffix, suffix ≠ [] →
        decodeElems elem vs.length (out ++ suffix) = .ok (vs, suffix)) ∧
      (∀ pres suffix, shapedList elem pres = true →
        pres.length = vs.length → suffix ≠ [] →
        decodeArrayElems elem pres vs.length (out ++ suffix)
          = .ok (vs, suffix)) := by
  cases vs with
  | nil =>
      refine ⟨[], by simp [encodeElems], ?_, ?_⟩
      · intro suffix hs
        simp [decodeElems]
      · intro pres suffix hps hplen hs
        have : pres = [] := List.eq_nil_of_length_eq_zero (by simpa using hplen)
        subst this
        simp [decodeArrayElems]
  | cons v rest =>
      rw [goodList] at h
      simp only [Bool.and_eq_true] at h
      obtain ⟨h1, h2⟩ := h
      obtain ⟨outv, hencv, hdecv⟩ := roundtripField elem v h1
      obtain ⟨outr, hencr, hdecr2, hdecr3⟩ := roundtripElemsAll elem rest h2
      refine ⟨outv ++ outr, ?_, ?_, ?_⟩
      · simp [encodeElems, hencv, hencr]
      · intro suffix hs
        have htail : outr ++ suffix ≠ [] := append_ne_nil_right outr suffix hs
        simp only [List.length_cons, decodeElems, List.append_assoc]
        rw [hdecv (zeroVal elem) (outr ++ suffix) (zeroVal_shaped elem) htail]
        simp [hdecr2 suffix hs]
      · intro pres suffix hps hplen hs
        cases pres with
        | nil => simp at hplen
        | cons p prest =>
            rw [shapedList] at hps
            simp only [Bool.and_eq_true] at hps
            obtain ⟨hp1, hp2⟩ := hps
            have hplen' : prest.length = rest.length := by simpa using hplen
            have htail : outr ++ suffix ≠ [] :=
              append_ne_nil_right outr suffix hs
            simp only [List.length_cons, decodeArrayElems, List.append_assoc]
            rw [hdecv p (outr ++ suffix) hp1 htail]
            simp [hdecr3 prest suffix hp2 hplen' hs]
termination_by (sizeOf elem, 1, vs.length)
decreasing_by all_goals (subst_vars; decreasing_tactic)

/-- Round trip for a struct's field walk (all fields untagged). -/
theorem roundtripFields :
    ∀ (tfs : List (String × String × Ty)) (vs : List Val),
    goodFields tfs vs = true →
    ∃ out, encodeStruct tfs vs = .ok out ∧
      ∀ pres suffix, shapedFields tfs pres = true → suffix ≠ [] →
        decodeStructFields tfs pres (out ++ suffix) = .ok (vs, suffix)
  | [], [], _ => by
      refine ⟨[], by simp [encodeStruct], ?_⟩
      intro pres suffix hps hs
      cases pres with
      | nil => simp [decodeStructFields]
      | cons p prest => simp [shapedFields] at hps
  | [], v :: vrest, h => by simp [goodFields] at h
  | (nm, tg, fty) :: trest, [], h => by simp [goodFields] at h
  | (nm, tg, fty) :: trest, v :: vrest, h => by
      rw [goodFields] at h
      simp only [Bool.and_eq_true, decide_eq_true_eq] at h
      obtain ⟨⟨htg, h1⟩, h2⟩ := h
      subst htg
      obtain ⟨outv, hencv, hdecv⟩ := roundtripField fty v h1
      obtain ⟨outr, hencr, hdecr⟩ := roundtripFields trest vrest h2
      refine ⟨outv ++ outr, ?_, ?_⟩
      · simp [encodeStruct, hencv, hencr]
      · intro pres suffix hps hs
        cases pres with
        | nil => simp [shapedFields] at hps
        | cons p prest =>
            rw [shapedFields] at hps
            simp only [Bool.and_eq_true] at hps
            obtain ⟨hp1, hp2⟩ := hps
            have htail : outr ++ suffix ≠ [] :=
              append_ne_nil_right outr suffix hs
            simp only [decodeStructFields, List.append_assoc]
            rw [if_neg (by decide : ¬("" : String) = "-")]
            rw [hdecv p (outr ++ suffix) hp1 htail]
            simp [hdecr prest suffix hp2 hs]
termination_by tfs _ _ => (sizeOf tfs, 2, 0)
decreasing_by all_goals (subst_vars; decreasing_tactic)

end

/-- Top-level corollary of the round trip: a `good` value marshals, and
`UnmarshalPartial` on its bytes followed by a non-empty suffix recovers the
value with exactly the suffix reported remaining, while the strict
`Unmarshal` rejects the trailing bytes. -/
theorem marshal_partial_roundtrip (ty : Ty) (v : Val)
    (h : good ty v = true) :
    ∃ out, Marshal (.plain ty v) = .ok out ∧
      ∀ pre suffix, shaped ty pre = true → suffix ≠ [] →
        UnmarshalPartial (.target ty pre) (out ++ suffix)
            = (suffix.length, .ok (some v)) ∧
        Unmarshal (.target ty pre) (out ++ suffix)
            = .error (.trailing suffix.length) := by
  obtain ⟨out, henc, hdec⟩ := roundtripField ty v h
  refine ⟨out, by simp [Marshal, henc], ?_⟩
  intro pre suffix hsh hs
  have hp : UnmarshalPartial (.target ty pre) (out ++ suffix)
      = (suffix.length, .ok (some v)) := by
    simp [UnmarshalPartial, hdec pre suffix hsh hs]
  refine ⟨hp, ?_⟩
  have hpos : 0 < suffix.length := List.length_pos.2 hs
  simp only [Unmarshal, hp]
  rw [if_pos hpos]

/-! ## Claim theorems -/

/-- **C1** (code bug).  The round-trip property fails on the empty string:
`Marshal ""` produces the 4 length bytes `[0,0,0,0]`, but `Unmarshal` of
exactly those bytes fails with `io.EOF`, because the decoder's
`buf.Read(make([]byte, 0))` is issued on an already exhausted
`bytes.Reader`, and `bytes.Reader.Read` reports `io.EOF` there even for a
zero-length read.  So `Decode(Encode(v)) == v` does not hold for every
untagged supported value. -/
theorem C1_roundtrip_fails_on_empty_string :
    Marshal (.plain .str (.str [])) = .ok [0, 0, 0, 0] ∧
    Unmarshal (.target .str (zeroVal .str)) [0, 0, 0, 0]
      = .error (.wrap "error unmarshaling value" .eof) := by
  constructor
  · simp [Marshal, encodeField, encodeString, fixedLen, natToLE]
  · simp [Unmarshal, UnmarshalPartial, decodeField, decodeString, fixedLen,
      readU32, readFull, readRaw, zeroVal, leToNat, natToLE]

/-- **C2** (code bug).  Partial-decode accounting fails for `v = ""` with
the empty suffix `s = []`: `UnmarshalPartial (Marshal "" ++ [])` does not
succeed with `remaining = 0` and target `""`, but fails with `io.EOF`
(same root cause as C1).  For every well-formed bool-free untagged value
and every **non-empty** suffix the claim's three parts do hold:
`UnmarshalPartial` recovers the value with `remaining = len(s)`, and the
strict `Unmarshal` rejects the trailing bytes. -/
theorem C2_partial_accounting_fails_on_empty_string :
    (Marshal (.plain .str (.str [])) = .ok [0, 0, 0, 0] ∧
     UnmarshalPartial (.target .str (zeroVal .str)) ([0, 0, 0, 0] ++ [])
       = (0, .error (.wrap "error unmarshaling value" .eof))) ∧
    (∀ ty v, good ty v = true →
      ∃ out, Marshal (.plain ty v) = .ok out ∧
        ∀ pre suffix, shaped ty pre = true → suffix ≠ [] →
          UnmarshalPartial (.target ty pre) (out ++ suffix)
              = (suffix.length, .ok (some v)) ∧
          Unmarshal (.target ty pre) (out ++ suffix)
              = .error (.trailing suffix.length)) := by
  refine ⟨⟨?_, ?_⟩, marshal_partial_roundtrip⟩
  · simp [Marshal, encodeField, encodeString, fixedLen, natToLE]
  · simp [UnmarshalPartial, decodeField, decodeString, fixedLen,
      readU32, readFull, readRaw, zeroVal, leToNat, natToLE]

/-- Witness for C2's general part: `v = uint32 5` with suffix `[1,2,3]` —
partial decode reports 3 remaining bytes and recovers 5; strict decode
fails with the 3-byte trailing error. -/
theorem C2_witness :
    UnmarshalPartial (.target .u32 (zeroVal .u32)) ([5, 0, 0, 0] ++ [1, 2, 3])
      = (3, .ok (some (.num 5))) ∧
    Unmarshal (.target .u32 (zeroVal .u32)) ([5, 0, 0, 0] ++ [1, 2, 3])
      = .error (.trailing 3) := by
  obtain ⟨out, henc, h⟩ :=
    C2_partial_accounting_fails_on_empty_string.2 .u32 (.num 5)
      (by simp [good])
  have hm : Marshal (.plain .u32 (.num 5)) = .ok [5, 0, 0, 0] := by
    simp [Marshal, encodeField, natToLE]
  rw [hm] at henc
  have hout : out = [5, 0, 0, 0] := by
    simpa using henc.symm
  subst hout
  obtain ⟨hp, hu⟩ := h (zeroVal .u32) [1, 2, 3] (zeroVal_shaped .u32)
    (by simp)
  exact ⟨by simpa using hp, by simpa using hu⟩

/-- **C3** (code bug).  The scalar claims hold for all integer and float
kinds — encode writes the value's fixed-width little-endian bytes, decode
reads exactly that many and fails with `io.EOF`/`io.ErrUnexpectedEOF` when
fewer remain — and booleans encode as one 0/1 byte; but decoding a boolean
never reads anything: `reflect.Bool` is missing from `decodeField`'s
numeric case list, so it falls through to the `unsupported type` branch,
contradicting both the claim and the package documentation that lists
`bool` as a supported type. -/
theorem C3_scalars_ok_but_bool_decode_unsupported :
    (∀ pre tag bs, decodeField .boolT pre tag bs
        = .error (.unsupported "bool", bs)) ∧
    (∀ (b : Bool) tag, encodeField .boolT (.boolV b) tag
        = .ok [if b then 1 else 0]) ∧
    (∀ ty k n tag, scalarWidth ty = some k →
        encodeField ty (.num n) tag = .ok (natToLE k n)) ∧
    (∀ ty k pre tag bs, scalarWidth ty = some k →
        (k ≤ bs.length →
          decodeField ty pre tag bs
            = .ok (.num (leToNat (bs.take k)), bs.drop k)) ∧
        (bs.length = 0 →
          decodeField ty pre tag bs = .error (.eof, [])) ∧
        (0 < bs.length → bs.length < k →
          decodeField ty pre tag bs = .error (.unexpectedEOF, []))) := by
  refine ⟨?_, ?_, ?_, ?_⟩
  · intro pre tag bs
    cases pre <;> simp [decodeField]
  · intro b tag
    simp [encodeField]
  · intro ty k n tag h
    cases ty <;> simp_all [scalarWidth, encodeField]
  · intro ty k pre tag bs h
    have hk : 1 ≤ k := by cases ty <;> simp_all [scalarWidth] <;> omega
    have hd : decodeField ty pre tag bs = decodeNum k bs := by
      cases ty <;> simp_all [scalarWidth, decodeField]
    refine ⟨?_, ?_, ?_⟩
    · intro h1
      rw [hd]
      simp [decodeNum, readFull, h1]
    · intro h1
      rw [hd]
      have h2 : ¬ k ≤ bs.length := by omega
      have h5 : k ≠ 0 := by omega
      simp [decodeNum, readFull, h1, h2, h5]
    · intro h1 h2
      rw [hd]
      have h3 : ¬ k ≤ bs.length := by omega
      have h4 : bs.length ≠ 0 := by omega
      simp [decodeNum, readFull, h3, h4]

/-- Witness for C3 at concrete inputs: `uint32` with a 4-byte cursor, an
empty cursor and a 2-byte cursor, plus the boolean cases. -/
theorem C3_witness :
    decodeField .boolT (.boolV false) "" [1]
      = .error (.unsupported "bool", [1]) ∧
    encodeField .boolT (.boolV true) "" = .ok [1] ∧
    encodeField .u32 (.num 7) "" = .ok (natToLE 4 7) ∧
    decodeField .u32 (.num 0) "" [7, 0, 0, 0]
      = .ok (.num (leToNat [7, 0, 0, 0]), []) ∧
    decodeField .u32 (.num 0) "" [] = .error (.eof, []) ∧
    decodeField .u32 (.num 0) "" [7, 0] = .error (.unexpectedEOF, []) := by
  refine ⟨C3_scalars_ok_but_bool_decode_unsupported.1 _ _ _,
    ?_, C3_scalars_ok_but_bool_decode_unsupported.2.2.1 .u32 4 7 "" rfl, ?_, ?_, ?_⟩
  · have h := C3_scalars_ok_but_bool_decode_unsupported.2.1 true ""
    simpa using h
  · have h := (C3_scalars_ok_but_bool_decode_unsupported.2.2.2 .u32 4
      (.num 0) "" [7, 0, 0, 0] rfl).1 (by simp)
    simpa using h
  · exact (C3_scalars_ok_but_bool_decode_unsupported.2.2.2 .u32 4
      (.num 0) "" [] rfl).2.1 rfl
  · exact (C3_scalars_ok_but_bool_decode_unsupported.2.2.2 .u32 4
      (.num 0) "" [7, 0] rfl).2.2 (by simp) (by simp)

/-- **C4** (code bug).  For untagged strings and byte slices the decoder
does read a 4-byte little-endian length prefix `L` and then at most `L`
payload bytes, but it does **not** fail whenever fewer than `L` bytes
remain: `buf.Read`'s short-read result is ignored, so with at least one but
fewer than `L` remaining bytes the decode silently succeeds with the
missing payload bytes left as zeros (and the cursor drained); the only
failing case is a payload read on an already empty cursor.  Concretely,
`[2,0,0,0,65]` (prefix 2, one payload byte) decodes to the string
`"A\x00"` instead of failing. -/
theorem C4_short_payload_zero_pads_instead_of_failing :
    decodeString "" [2, 0, 0, 0, 65] = .ok (.str [65, 0], []) ∧
    (∀ L payload, L < 2 ^ 32 →
      (payload = [] →
        decodeString "" (natToLE 4 L ++ payload) = .error (.eof, [])) ∧
      (payload ≠ [] →
        decodeString "" (natToLE 4 L ++ payload)
          = .ok (.str (padTo L (payload.take L)), payload.drop L)) ∧
      (payload = [] →
        decodeBytes "" (natToLE 4 L ++ payload) = .error (.eof, [])) ∧
      (payload ≠ [] →
        decodeBytes "" (natToLE 4 L ++ payload)
          = .ok (.bytes false (padTo L (payload.take L)), payload.drop L))) := by
  constructor
  · simp [decodeString, fixedLen, readU32, readFull, readRaw, padTo, leToNat]
  · intro L payload hL
    have hpre := readU32_natToLE_append L hL payload
    refine ⟨?_, ?_, ?_, ?_⟩ <;> intro hp
    · subst hp
      simp only [decodeString, fixedLen_empty, hpre, readRaw, List.length_nil]
      simp
    · have hne : payload.length ≠ 0 := by
        simpa [List.length_eq_zero] using hp
      simp only [decodeString, fixedLen_empty, hpre, readRaw]
      rw [if_neg hne]
    · subst hp
      simp only [decodeBytes, fixedLen_empty, hpre, readRaw, List.length_nil]
      simp
    · have hne : payload.length ≠ 0 := by
        simpa [List.length_eq_zero] using hp
      simp only [decodeBytes, fixedLen_empty, hpre, readRaw]
      rw [if_neg hne]

/-- Witness for C4: the general statement at `L = 2` with a one-byte
payload (silent zero-padding) and at `L = 0` with an empty payload
(spurious EOF). -/
theorem C4_witness :
    decodeString "" (natToLE 4 2 ++ [65]) = .ok (.str [65, 0], []) ∧
    decodeString "" (natToLE 4 0 ++ []) = .error (.eof, []) := by
  constructor
  · have h := ((C4_short_payload_zero_pads_instead_of_failing.2 2 [65]
      (by norm_num)).2.1 (by simp))
    simpa [padTo] using h
  · exact (C4_short_payload_zero_pads_instead_of_failing.2 0 []
      (by norm_num)).1 rfl

/-- **C5** (code bug).  For `Fixed(n)`-tagged strings and byte slices the
encoder writes exactly `n` bytes with no length prefix (truncating a long
payload, right-padding a short one with zeros) whenever the payload is
shorter than `2^32` bytes, and the decoder reads exactly `n` bytes —
stripping trailing zeros for strings, keeping them for byte slices —
whenever `n` bytes are available and the cursor is not already empty.  Two
divergences from the claim: a `Fixed(0)` read on an exhausted cursor,
which the claim says reads exactly 0 bytes, fails with `io.EOF`
(`bytes.Reader.Read` reports EOF there even for a zero-length read); and
the length comparison goes through `uint32(len(data))`, so a `2^32`-byte
payload under tag `"0"` compares equal to 0 and is written in full
instead of being truncated to 0 bytes. -/
theorem C5_fixed_tag_framing :
    decodeString "0" [] = .error (.eof, []) ∧
    encodeString (List.replicate (2 ^ 32) 7) "0"
      = List.replicate (2 ^ 32) 7 ∧
    (∀ s tag n, fixedLen tag = some n → s.length < 2 ^ 32 →
      encodeString s tag = s.take n ++ List.replicate (n - s.length) 0) ∧
    (∀ b tag n, fixedLen tag = some n → b.length < 2 ^ 32 →
      encodeBytes b tag = b.take n ++ List.replicate (n - b.length) 0) ∧
    (∀ tag n bs, fixedLen tag = some n → bs ≠ [] → n ≤ bs.length →
      decodeString tag bs
          = .ok (.str (trimTrailingZeros (bs.take n)), bs.drop n) ∧
      decodeBytes tag bs = .ok (.bytes false (bs.take n), bs.drop n)) := by
  refine ⟨?_, ?_, ?_, ?_, ?_⟩
  · have h0 : fixedLen "0" = some 0 := by decide
    simp [decodeString, h0, readRaw]
  · have h0 : fixedLen "0" = some 0 := by decide
    simp only [encodeString, h0, List.length_replicate, Nat.mod_self,
      gt_iff_lt, lt_self_iff_false, if_false]
  · intro s tag n h hcap
    have hm : s.length % 2 ^ 32 = s.length := Nat.mod_eq_of_lt hcap
    simp only [encodeString, h, hm]
    rcases Nat.lt_trichotomy s.length n with hlt | heq | hgt
    · have h1 : ¬ s.length > n := by omega
      rw [if_neg h1, if_pos hlt]
    · subst heq
      have h1 : ¬ s.length > s.length := by omega
      have h2 : ¬ s.length < s.length := by omega
      rw [if_neg h1, if_neg h2]
      simp
    · have h1 : n - s.length = 0 := by omega
      rw [if_pos hgt, h1]
      simp
  · intro b tag n h hcap
    have hm : b.length % 2 ^ 32 = b.length := Nat.mod_eq_of_lt hcap
    simp only [encodeBytes, h, hm]
    rcases Nat.lt_trichotomy b.length n with hlt | heq | hgt
    · have h1 : ¬ b.length > n := by omega
      rw [if_neg h1, if_pos hlt]
    · subst heq
      have h1 : ¬ b.length > b.length := by omega
      have h2 : ¬ b.length < b.length := by omega
      rw [if_neg h1, if_neg h2]
      simp
    · have h1 : n - b.length = 0 := by omega
      rw [if_pos hgt, h1]
      simp
  · intro tag n bs h hne hn
    have hlen : bs.length ≠ 0 := by simpa [List.length_eq_zero] using hne
    have htk : (bs.take n).length = n := by
      simp [List.length_take]
      omega
    have hpad : padTo n (bs.take n) = bs.take n := by
      simp [padTo, htk]
    constructor
    · simp [decodeString, h, readRaw, hlen, hpad]
    · simp [decodeBytes, h, readRaw, hlen, hpad]

/-- Witness for C5: tag `"3"` on a 4-byte string (truncation), a 2-byte
payload (padding), and a cursor `[5,0,0]` (read exactly 3, trailing zeros
stripped for the string and kept for the bytes). -/
theorem C5_witness :
    encodeString [1, 2, 3, 4] "3" = [1, 2, 3] ∧
    encodeBytes [1, 2] "3" = [1, 2, 0] ∧
    decodeString "3" [5, 0, 0] = .ok (.str [5], []) ∧
    decodeBytes "3" [5, 0, 0] = .ok (.bytes false [5, 0, 0], []) := by
  have h3 : fixedLen "3" = some 3 := by decide
  refine ⟨?_, ?_, ?_, ?_⟩
  · have h := C5_fixed_tag_framing.2.2.1 [1, 2, 3, 4] "3" 3 h3 (by norm_num)
    simpa using h
  · have h := C5_fixed_tag_framing.2.2.2.1 [1, 2] "3" 3 h3 (by norm_num)
    simpa using h
  · have h := (C5_fixed_tag_framing.2.2.2.2 "3" 3 [5, 0, 0] h3 (by simp)
      (by simp)).1
    simpa [trimTrailingZeros] using h
  · have h := (C5_fixed_tag_framing.2.2.2.2 "3" 3 [5, 0, 0] h3 (by simp)
      (by simp)).2
    simpa using h

/-- The fixed-length encode loop writes exactly the first `min n (length)`
real elements followed by zero values up to `n`, each encoded with the
empty tag — the same bytes the plain element loop produces on the
truncated-and-padded element list. -/
theorem encodeFixedElems_eq_encodeElems (elem : Ty) :
    ∀ (n : Nat) (vs : List Val),
    encodeFixedElems elem vs n
      = encodeElems elem
          (vs.take n ++ List.replicate (n - vs.length) (zeroVal elem)) := by
  intro n
  induction n with
  | zero =>
      intro vs
      simp [encodeFixedElems, encodeElems]
  | succ n ih =>
      intro vs
      cases vs with
      | nil =>
          simp [encodeFixedElems, encodeElems, ih, List.replicate_succ]
      | cons v rest =>
          simp [encodeFixedElems, encodeElems, ih, Nat.succ_sub_succ]

/-- The fixed-length array decode loop equals decoding `n` elements into
fresh zero targets and keeping the first `array length` of them, provided
decoding an element of type `elem` does not depend on the target's current
value. -/
theorem decodeArrayElems_eq_decodeElems (elem : Ty)
    (H : ∀ p bs, decodeField elem p "" bs
        = decodeField elem (zeroVal elem) "" bs) :
    ∀ (n : Nat) (pres : List Val) (bs : List Nat),
    decodeArrayElems elem pres n bs
      = match decodeElems elem n bs with
        | .ok (ws, rest) => .ok (ws.take pres.length, rest)
        | .error e => .error e := by
  intro n
  induction n with
  | zero =>
      intro pres bs
      simp [decodeArrayElems, decodeElems]
  | succ n ih =>
      intro pres bs
      cases pres with
      | nil =>
          simp only [decodeArrayElems, decodeElems]
          cases h : decodeField elem (zeroVal elem) "" bs with
          | ok vr =>
              obtain ⟨v, rest⟩ := vr
              simp only [ih]
              cases h2 : decodeElems elem n rest <;> simp_all
          | error e => simp
      | cons p prest =>
          simp only [decodeArrayElems, decodeElems, H p bs]
          cases h : decodeField elem (zeroVal elem) "" bs with
          | ok vr =>
              obtain ⟨v, rest⟩ := vr
              simp only [ih]
              cases h2 : decodeElems elem n rest <;> simp_all
          | error e => simp

/-- **C6 counterexample.**  The claim as stated fails past the `uint32`
wrap: a slice of `2^32` elements tagged `Fixed(1)` should, per the claim,
encode its first real element (`1` as little-endian `[1,0,0,0]`), but
`sliceLen := uint32(slice.Len())` is 0, so the code encodes one **zero**
value, `[0,0,0,0]`. -/
theorem C6_counterexample :
    encodeSlice .u32 (List.replicate (2 ^ 32) (.num 1)) "1"
      = .ok [0, 0, 0, 0] ∧
    encodeElems .u32 [.num 1] = .ok [1, 0, 0, 0] := by
  constructor
  · have h1 : fixedLen "1" = some 1 := by decide
    simp only [encodeSlice, h1, List.length_replicate, Nat.mod_self,
      List.take_zero]
    simp [encodeFixedElems, encodeField, zeroVal, natToLE]
  · simp [encodeElems, encodeField, natToLE]

/-- **C6** (corrected: restricted below the `uint32` wrap).  For slices
and arrays of fewer than `2^32` elements, a `Fixed(n)` tag encodes exactly
`n` elements and no count: the first `min n (actual length)` real
elements, then zero values, excess real elements dropped.  Decoding a
fixed array whose type's length is below `2^32` reads exactly `n` elements
positionally: those past the array's length go into discarded temporaries
(the cursor still advances through them), and array positions from `n` on
are zero-filled — provided element decoding does not depend on the
target's current value, which holds for every element kind whose decode
ignores its target. -/
theorem C6_fixed_sequence_truncate_pad_skip :
    (∀ elem vs tag n, fixedLen tag = some n → vs.length < 2 ^ 32 →
      encodeSlice elem vs tag
        = encodeElems elem
            (vs.take n ++ List.replicate (n - vs.length) (zeroVal elem))) ∧
    (∀ elem vs tag n, fixedLen tag = some n → vs.length < 2 ^ 32 →
      encodeArray elem vs tag
        = encodeElems elem
            (vs.take n ++ List.replicate (n - vs.length) (zeroVal elem))) ∧
    (∀ elem,
      (∀ p bs, decodeField elem p "" bs
          = decodeField elem (zeroVal elem) "" bs) →
      ∀ N pres tag bs n, fixedLen tag = some n → pres.length = N →
      N < 2 ^ 32 →
      decodeArray N elem pres tag bs
        = match decodeElems elem n bs with
          | .ok (ws, rest) =>
              .ok (.arr (ws.take N ++ List.replicate (N - n) (zeroVal elem)),
                rest)
          | .error e => .error e) := by
  refine ⟨?_, ?_, ?_⟩
  · intro elem vs tag n h hcap
    have hm : vs.length % 2 ^ 32 = vs.length := Nat.mod_eq_of_lt hcap
    simp only [encodeSlice, h, hm, List.take_length]
    exact encodeFixedElems_eq_encodeElems elem n vs
  · intro elem vs tag n h hcap
    have hm : vs.length % 2 ^ 32 = vs.length := Nat.mod_eq_of_lt hcap
    simp only [encodeArray, h, hm, List.take_length]
    exact encodeFixedElems_eq_encodeElems elem n vs
  · intro elem H N pres tag bs n h hN hcap
    have hm : N % 2 ^ 32 = N := Nat.mod_eq_of_lt hcap
    have hpt : pres.take N = pres := by
      rw [← hN]; simp
    have hpd : pres.drop N = [] := by
      rw [← hN]; simp
    simp only [decodeArray, h, hm, hpt, hpd,
      decodeArrayElems_eq_decodeElems elem H, hN]
    cases h2 : decodeElems elem n bs with
    | ok wr =>
        obtain ⟨ws, rest⟩ := wr
        simp
    | error e => simp

/-- Witness for C6: `uint32` elements; a 3-element slice with tag `"5"`
encodes as 5 elements (two zeros appended), and a `[5]uint32` array with
tag `"3"` decodes 12 bytes to `[1,2,3,0,0]`. -/
theorem C6_witness :
    encodeSlice .u32 [.num 10, .num 20, .num 30] "5"
      = encodeElems .u32
          [.num 10, .num 20, .num 30, zeroVal .u32, zeroVal .u32] ∧
    decodeArray 5 .u32 (List.replicate 5 (zeroVal .u32)) "3"
        [1, 0, 0, 0, 2, 0, 0, 0, 3, 0, 0, 0]
      = .ok (.arr [.num 1, .num 2, .num 3, zeroVal .u32, zeroVal .u32], []) := by
  constructor
  · have h := C6_fixed_sequence_truncate_pad_skip.1 .u32
      [.num 10, .num 20, .num 30] "5" 5 (by decide) (by norm_num)
    simpa using h
  · have H : ∀ p bs, decodeField .u32 p "" bs
        = decodeField .u32 (zeroVal .u32) "" bs := by
      intro p bs
      simp [decodeField]
    have h := C6_fixed_sequence_truncate_pad_skip.2.2 .u32 H 5
      (List.replicate 5 (zeroVal .u32)) "3"
      [1, 0, 0, 0, 2, 0, 0, 0, 3, 0, 0, 0] 3 (by decide) (by simp)
      (by norm_num)
    rw [h]
    have h2 : decodeElems .u32 3 [1, 0, 0, 0, 2, 0, 0, 0, 3, 0, 0, 0]
        = .ok ([.num 1, .num 2, .num 3], []) := by
      simp [decodeElems, decodeField, decodeNum, readFull, zeroVal, leToNat]
    rw [h2]
    simp [zeroVal]

/-- A field tagged `-` contributes no bytes: the struct encodes exactly as
the struct without that field. -/
theorem encodeStruct_excluded :
    ∀ (tfs1 : List (String × String × Ty)) (vs1 : List Val),
    tfs1.length = vs1.length →
    ∀ name fty tfs2 vs2 v,
    encodeStruct (tfs1 ++ (name, "-", fty) :: tfs2) (vs1 ++ v :: vs2)
      = encodeStruct (tfs1 ++ tfs2) (vs1 ++ vs2) := by
  intro tfs1
  induction tfs1 with
  | nil =>
      intro vs1 hlen name fty tfs2 vs2 v
      have : vs1 = [] := List.eq_nil_of_length_eq_zero hlen.symm
      subst this
      simp [encodeStruct]
  | cons hd rest1 ih =>
      intro vs1 hlen name fty tfs2 vs2 v
      obtain ⟨nm, tg, t⟩ := hd
      cases vs1 with
      | nil => simp at hlen
      | cons w vrest =>
          have hlen' : rest1.length = vrest.length := by
            simpa using hlen
          by_cases htg : tg = "-"
          · simp [encodeStruct, htg, ih vrest hlen']
          · cases henc : encodeField t w tg with
            | ok h => simp [encodeStruct, htg, henc, ih vrest hlen']
            | error e => simp [encodeStruct, htg, henc]

/-- A field tagged `-` is not read: the struct decodes exactly as the
struct without that field, with the excluded position keeping the
target's pre-existing value. -/
theorem decodeStructFields_excluded :
    ∀ (tfs1 : List (String × String × Ty)) (vs1 : List Val),
    tfs1.length = vs1.length →
    ∀ name fty tfs2 vs2 v bs,
    decodeStructFields (tfs1 ++ (name, "-", fty) :: tfs2) (vs1 ++ v :: vs2) bs
      = match decodeStructFields (tfs1 ++ tfs2) (vs1 ++ vs2) bs with
        | .ok (ws, rest) =>
            .ok (ws.take vs1.length ++ v :: ws.drop vs1.length, rest)
        | .error e => .error e := by
  intro tfs1
  induction tfs1 with
  | nil =>
      intro vs1 hlen name fty tfs2 vs2 v bs
      have : vs1 = [] := List.eq_nil_of_length_eq_zero hlen.symm
      subst this
      simp only [List.nil_append, decodeStructFields, List.length_nil]
      cases h : decodeStructFields tfs2 vs2 bs with
      | ok wr =>
          obtain ⟨ws, rest⟩ := wr
          simp
      | error e => simp
  | cons hd rest1 ih =>
      intro vs1 hlen name fty tfs2 vs2 v bs
      obtain ⟨nm, tg, t⟩ := hd
      cases vs1 with
      | nil => simp at hlen
      | cons w vrest =>
          have hlen' : rest1.length = vrest.length := by
            simpa using hlen
          by_cases htg : tg = "-"
          · simp only [List.cons_append, decodeStructFields, htg, if_true,
              List.length_cons]
            rw [ih vrest hlen']
            cases h : decodeStructFields (rest1 ++ tfs2) (vrest ++ vs2) bs with
            | ok wr =>
                obtain ⟨ws, rest⟩ := wr
                simp
            | error e => simp
          · simp only [List.cons_append, decodeStructFields, htg, if_false,
              List.length_cons]
            cases hdec : decodeField t w tg bs with
            | ok wr =>
                obtain ⟨w2, rest⟩ := wr
                simp only [ih vrest hlen']
                cases h : decodeStructFields (rest1 ++ tfs2) (vrest ++ vs2)
                    rest with
                | ok wr2 =>
                    obtain ⟨ws, rest2⟩ := wr2
                    simp
                | error e => simp
            | error er =>
                obtain ⟨e, rest⟩ := er
                simp

/-- **C7** (confirmed).  A record field whose tag is the exclusion marker
`-` contributes zero bytes on encode — the record encodes exactly as the
record without it — and on decode it is skipped, keeping the target's
pre-existing (default zero/empty) value, while all other fields are
processed normally in declaration order. -/
theorem C7_excluded_field_skipped :
    ∀ (tfs1 : List (String × String × Ty)) (vs1 : List Val),
    tfs1.length = vs1.length →
    ∀ name fty tfs2 vs2 v bs,
    (encodeStruct (tfs1 ++ (name, "-", fty) :: tfs2) (vs1 ++ v :: vs2)
        = encodeStruct (tfs1 ++ tfs2) (vs1 ++ vs2)) ∧
    (decodeStructFields (tfs1 ++ (name, "-", fty) :: tfs2) (vs1 ++ v :: vs2)
          bs
        = match decodeStructFields (tfs1 ++ tfs2) (vs1 ++ vs2) bs with
          | .ok (ws, rest) =>
              .ok (ws.take vs1.length ++ v :: ws.drop vs1.length, rest)
          | .error e => .error e) := by
  intro tfs1 vs1 hlen name fty tfs2 vs2 v bs
  exact ⟨encodeStruct_excluded tfs1 vs1 hlen name fty tfs2 vs2 v,
    decodeStructFields_excluded tfs1 vs1 hlen name fty tfs2 vs2 v bs⟩

/-- Witness for C7: the two-field record `{Skip string `binary:"-"`,
B uint8}` holding `("ignored", 7)` encodes as just `[7]` and decodes `[9]`
keeping the pre-existing `Skip` value while updating `B`. -/
theorem C7_witness :
    encodeStruct [("Skip", "-", .str), ("B", "", .u8)]
        [.str [1, 2], .num 7]
      = encodeStruct [("B", "", .u8)] [.num 7] ∧
    decodeStructFields [("Skip", "-", .str), ("B", "", .u8)]
        [.str [1, 2], .num 0] [9]
      = .ok ([.str [1, 2], .num 9], []) := by
  have h := C7_excluded_field_skipped [] [] rfl "Skip" .str
    [("B", "", .u8)] [.num 0] (.str [1, 2]) [9]
  constructor
  · exact (C7_excluded_field_skipped [] [] rfl "Skip" .str
      [("B", "", .u8)] [.num 7] (.str [1, 2]) []).1
  · have hd := h.2
    simp only [List.nil_append] at hd
    rw [hd]
    have h2 : decodeStructFields [("B", "", .u8)] [.num 0] [9]
        = .ok ([.num 9], []) := by
      simp [decodeStructFields, decodeField, decodeNum, readFull, leToNat]
    rw [h2]
    simp

/-- **C8** (confirmed).  A top-level `BinaryMarshaler` short-circuits
`Marshal` to exactly its own output, and a top-level `BinaryUnmarshaler`
receives the entire input while `UnmarshalPartial` reports 0 remaining
bytes no matter how much of it the custom decoder consumed. -/
theorem C8_top_level_custom_codec :
    (∀ res, Marshal (.custom res) = res) ∧
    (∀ u data, UnmarshalPartial (.custom u) data
        = (0, match u data with
              | some e => .error e
              | none => .ok none)) :=
  ⟨fun _ => rfl, fun _ _ => rfl⟩

/-- **C9** (confirmed).  Pointer handling: a non-nil pointer marshals to
exactly the bytes of its pointee, a nil pointer fails `Marshal` with the
nil-pointer error, and on decode a nil pointer target is allocated a fresh
zero pointee which is then decoded into (a non-nil pointer decodes into its
existing pointee). -/
theorem C9_pointer_handling :
    (∀ ty v tag, encodeField (.ptr ty) (.ptrSome v) tag
        = encodeField ty v tag) ∧
    (∀ ty tag, encodeField (.ptr ty) .ptrNone tag = .error .nilPointer) ∧
    (∀ ty v, Marshal (.plain (.ptr ty) (.ptrSome v)) = Marshal (.plain ty v)) ∧
    (∀ ty, Marshal (.plain (.ptr ty) .ptrNone)
        = .error (.wrap "error marshaling value" .nilPointer)) ∧
    (∀ ty tag bs, decodeField (.ptr ty) .ptrNone tag bs
        = match decodeField ty (zeroVal ty) tag bs with
          | .ok (v, rest) => .ok (.ptrSome v, rest)
          | .error e => .error e) ∧
    (∀ ty w tag bs, decodeField (.ptr ty) (.ptrSome w) tag bs
        = match decodeField ty w tag bs with
          | .ok (v, rest) => .ok (.ptrSome v, rest)
          | .error e => .error e) := by
  refine ⟨?_, ?_, ?_, ?_, ?_, ?_⟩
  · intro ty v tag
    simp [encodeField]
  · intro ty tag
    simp [encodeField]
  · intro ty v
    simp [Marshal, encodeField]
  · intro ty
    simp [Marshal, encodeField]
  · intro ty tag bs
    simp [decodeField]
  · intro ty w tag bs
    simp [decodeField]

/-- **C10** (confirmed).  A nil slice (of non-byte element type) marshals
to exactly the 4-byte little-endian zero count `[0,0,0,0]` — the same
bytes as the empty slice — and unmarshaling those bytes yields a freshly
made empty, non-nil slice: nil slices round-trip to empty slices. -/
theorem C10_nil_slice_roundtrips_to_empty :
    (∀ elem, Marshal (.plain (.slice elem) (.slice true []))
        = .ok [0, 0, 0, 0]) ∧
    (∀ elem, Marshal (.plain (.slice elem) (.slice false []))
        = .ok [0, 0, 0, 0]) ∧
    (∀ elem pre, Unmarshal (.target (.slice elem) pre) [0, 0, 0, 0]
        = .ok (some (.slice false []))) := by
  refine ⟨?_, ?_, ?_⟩
  · intro elem
    simp [Marshal, encodeField, encodeSlice, encodeElems, fixedLen, natToLE]
  · intro elem
    simp [Marshal, encodeField, encodeSlice, encodeElems, fixedLen, natToLE]
  · intro elem pre
    simp [Unmarshal, UnmarshalPartial, decodeField, decodeSlice, decodeElems,
      fixedLen, readU32, readFull, leToNat]

end BinaryCodec
